import Mathlib

/-!
Shallow embedding of the `numanpy.root_finding` module over the rationals.

The Python source defines three scalar root-finding solvers: `bisect`
(bisection on a bracketing interval), `iterate` (fixed-point iteration) and
`newton` (Newton's method).  Each is embedded here as a fuel-indexed
recursion on `Nat` (the iteration cap `N`), with Python exceptions modelled
by an explicit error type: `ValueError` (bad bracket / zero derivative)
becomes `RFError.valueError` and `RuntimeError` (iteration budget exhausted)
becomes `RFError.runtimeError`.  Verbose mode returns the iterate trace
(`Sum.inr`), non-verbose mode the scalar result (`Sum.inl`).
-/

namespace Numanpy

/-- Errors raised by the solvers: `valueError` models Python's `ValueError`
(the bracket precondition in `bisect`, the zero derivative in `newton`);
`runtimeError` models `RuntimeError` (maximum iterations reached). -/
inductive RFError where
  | valueError
  | runtimeError
deriving DecidableEq

/-- Result of `bisect` and `newton`: a scalar root (non-verbose mode) or the
full iterate trace (verbose mode), or an error. -/
abbrev BNResult := Except RFError (ℚ ⊕ List ℚ)

/-- The stopping test of `bisect` at bracket `(a, b)`:
`abs(f(c)) < eps or (b - a) / 2 < eps` with `c = (a + b) / 2`
(line 23 of the source). -/
def bstop (f : ℚ → ℚ) (eps a b : ℚ) : Prop :=
  |f ((a + b) / 2)| < eps ∨ (b - a) / 2 < eps

instance (f : ℚ → ℚ) (eps a b : ℚ) : Decidable (bstop f eps a b) :=
  inferInstanceAs (Decidable (|f ((a + b) / 2)| < eps ∨ (b - a) / 2 < eps))

/-- One bound replacement of `bisect` (lines 29-32 of the source): with
`c = (a + b) / 2`, if `f(c) * f(a) < 0` set `b = c`, else set `a = c`.
The bracket is the pair `p = (a, b)`. -/
def bisectStep (f : ℚ → ℚ) (p : ℚ × ℚ) : ℚ × ℚ :=
  if f ((p.1 + p.2) / 2) * f p.1 < 0 then (p.1, (p.1 + p.2) / 2)
  else ((p.1 + p.2) / 2, p.2)

/-- The `for _ in range(N)` loop of `bisect` (lines 20-34): each step appends
the midpoint `c` to the trace `cs`, returns on the stopping test (the trace
when verbose, the midpoint otherwise), else replaces one bound and recurses;
exhausted fuel raises `RuntimeError`. -/
def bisectLoop (f : ℚ → ℚ) (eps : ℚ) (verbose : Bool) : Nat → ℚ × ℚ → List ℚ → BNResult
  | 0, _, _ => .error .runtimeError
  | n + 1, p, cs =>
    if bstop f eps p.1 p.2 then
      if verbose then .ok (.inr (cs ++ [(p.1 + p.2) / 2]))
      else .ok (.inl ((p.1 + p.2) / 2))
    else
      bisectLoop f eps verbose n (bisectStep f p) (cs ++ [(p.1 + p.2) / 2])

/-- `bisect(f, a, b, eps, N, verbose)` (lines 1-34 of the source): raise
`ValueError` when `f(a) * f(b) >= 0`, else run the bisection loop starting
from the bracket `(a, b)` and an empty trace. -/
def bisect (f : ℚ → ℚ) (a b eps : ℚ) (N : Nat) (verbose : Bool) : BNResult :=
  if f a * f b ≥ 0 then .error .valueError
  else bisectLoop f eps verbose N (a, b) []

/-- The `for _ in range(N)` loop of `iterate` (lines 51-57): compute
`x_ = f(x)`, return `x_` when `abs(x_ - x) < eps`, else continue from `x_`;
exhausted fuel raises `RuntimeError`. -/
def iterLoop (f : ℚ → ℚ) (eps : ℚ) : Nat → ℚ → Except RFError ℚ
  | 0, _ => .error .runtimeError
  | n + 1, x =>
    if |f x - x| < eps then .ok (f x)
    else iterLoop f eps n (f x)

/-- `iterate(f, x0, eps, N)` (lines 37-57 of the source): fixed-point
iteration from `x0`. -/
def iterate (f : ℚ → ℚ) (x0 eps : ℚ) (N : Nat) : Except RFError ℚ :=
  iterLoop f eps N x0

/-- One Newton update (line 82 of the source): `x - f(x) / df(x)`. -/
def newtonStep (f df : ℚ → ℚ) (x : ℚ) : ℚ :=
  x - f x / df x

/-- The `for _ in range(N)` loop of `newton` (lines 76-90): at iterate `x`
with history `xs` (which ends in `x`), raise `ValueError` when `df(x) == 0`,
else append the Newton update and return (the history when verbose, the new
iterate otherwise) when the last two iterates differ by less than `eps`;
exhausted fuel raises `RuntimeError`. -/
def newtonLoop (f df : ℚ → ℚ) (eps : ℚ) (verbose : Bool) : Nat → ℚ → List ℚ → BNResult
  | 0, _, _ => .error .runtimeError
  | n + 1, x, xs =>
    if df x = 0 then .error .valueError
    else
      if |newtonStep f df x - x| < eps then
        if verbose then .ok (.inr (xs ++ [newtonStep f df x]))
        else .ok (.inl (newtonStep f df x))
      else newtonLoop f df eps verbose n (newtonStep f df x) (xs ++ [newtonStep f df x])

/-- `newton(f, df, x0, eps, N, verbose)` (lines 60-90 of the source): Newton's
method from `x0`, with the history seeded `x = [x0]` (line 75). -/
def newton (f df : ℚ → ℚ) (x0 eps : ℚ) (N : Nat) (verbose : Bool) : BNResult :=
  newtonLoop f df eps verbose N x0 [x0]

/-! ### Helper lemmas -/

theorem bisectLoop_ne_valueError (f : ℚ → ℚ) (eps : ℚ) (v : Bool) :
    ∀ n p cs, bisectLoop f eps v n p cs ≠ .error .valueError := by
  intro n
  induction n with
  | zero => intro p cs h; simp [bisectLoop] at h
  | succ n ih =>
    intro p cs h
    rw [bisectLoop] at h
    by_cases hs : bstop f eps p.1 p.2
    · rw [if_pos hs] at h
      cases v <;> simp at h
    · rw [if_neg hs] at h
      exact ih _ _ h

theorem iterLoop_nonpos (f : ℚ → ℚ) (eps : ℚ) (he : eps ≤ 0) :
    ∀ n x, iterLoop f eps n x = .error .runtimeError := by
  intro n
  induction n with
  | zero => intro x; rfl
  | succ n ih =>
    intro x
    rw [iterLoop, if_neg]
    · exact ih (f x)
    · intro hlt
      exact absurd (lt_of_le_of_lt (abs_nonneg _) hlt) (not_lt.mpr he)

/-! ### Claims -/

/-- C4: `bisect` fails with the precondition-violation error (`ValueError`)
if and only if `f(a) * f(b) ≥ 0` at entry.  The iff is over every `N`
(including `N = 0`) and both verbose modes: the check precedes the loop, so
no iteration is attempted and no midpoint is computed — in particular the
loop itself can never produce this error (`bisectLoop_ne_valueError`). -/
theorem bisect_valueError_iff (f : ℚ → ℚ) (a b eps : ℚ) (N : Nat) (v : Bool) :
    bisect f a b eps N v = .error .valueError ↔ f a * f b ≥ 0 := by
  rw [bisect]
  by_cases h : f a * f b ≥ 0
  · rw [if_pos h]
    simp [h]
  · rw [if_neg h]
    constructor
    · intro hc
      exact absurd hc (bisectLoop_ne_valueError f eps v N (a, b) [])
    · intro hc
      exact absurd hc h

/-- C10: for every `eps ≤ 0`, every `f`, every `x0` and every `N`,
`iterate` never returns a value: the strict test `|x_next − x| < eps` can
never hold for non-positive `eps`, so the call raises the
convergence-exhausted error (`RuntimeError`) after `N` steps. -/
theorem iterate_nonpos_eps (f : ℚ → ℚ) (x0 eps : ℚ) (N : Nat) (he : eps ≤ 0) :
    iterate f x0 eps N = .error .runtimeError :=
  iterLoop_nonpos f eps he N x0

/-- Witness for C10 at `f = (· + 1)`, `x0 = 0`, `eps = 0`, `N = 3`. -/
theorem iterate_nonpos_eps_witness :
    (0 : ℚ) ≤ 0 ∧ iterate (fun x : ℚ => x + 1) 0 0 3 = .error .runtimeError :=
  ⟨by decide, iterate_nonpos_eps (fun x : ℚ => x + 1) 0 0 3 (by decide)⟩

theorem iterLoop_ok_iff (f : ℚ → ℚ) (eps : ℚ) :
    ∀ n x y, iterLoop f eps n x = .ok y ↔
      ∃ k, k < n ∧ (∀ j, j < k → ¬(|f^[j + 1] x - f^[j] x| < eps)) ∧
        |f^[k + 1] x - f^[k] x| < eps ∧ y = f^[k + 1] x := by
  intro n
  induction n with
  | zero =>
    intro x y
    simp [iterLoop]
  | succ n ih =>
    intro x y
    rw [iterLoop]
    by_cases h : |f x - x| < eps
    · rw [if_pos h]
      constructor
      · intro hy
        refine ⟨0, n.succ_pos, fun j hj => absurd hj (Nat.not_lt_zero j), by simpa using h, ?_⟩
        simpa using (Except.ok.inj hy).symm
      · rintro ⟨k, hk, hall, hstop, hy⟩
        cases k with
        | zero => simp_all
        | succ k =>
          exact absurd (by simpa using h) (by simpa using hall 0 k.succ_pos)
    · rw [if_neg h]
      rw [ih (f x) y]
      constructor
      · rintro ⟨k, hk, hall, hstop, hy⟩
        refine ⟨k + 1, Nat.succ_lt_succ hk, ?_, ?_, ?_⟩
        · intro j hj
          cases j with
          | zero => simpa using h
          | succ j =>
            have := hall j (Nat.lt_of_succ_lt_succ hj)
            simpa [Function.iterate_succ_apply] using this
        · simpa [Function.iterate_succ_apply] using hstop
        · simpa [Function.iterate_succ_apply] using hy
      · rintro ⟨k, hk, hall, hstop, hy⟩
        cases k with
        | zero => exact absurd (by simpa using hstop) h
        | succ k =>
          refine ⟨k, Nat.lt_of_succ_lt_succ hk, ?_, ?_, ?_⟩
          · intro j hj
            have := hall (j + 1) (Nat.succ_lt_succ hj)
            simpa [Function.iterate_succ_apply] using this
          · simpa [Function.iterate_succ_apply] using hstop
          · simpa [Function.iterate_succ_apply] using hy

theorem iterLoop_runtime_iff (f : ℚ → ℚ) (eps : ℚ) :
    ∀ n x, iterLoop f eps n x = .error .runtimeError ↔
      ∀ k, k < n → ¬(|f^[k + 1] x - f^[k] x| < eps) := by
  intro n
  induction n with
  | zero =>
    intro x
    simp [iterLoop]
  | succ n ih =>
    intro x
    rw [iterLoop]
    by_cases h : |f x - x| < eps
    · rw [if_pos h]
      constructor
      · intro hc; simp at hc
      · intro hall
        exact absurd (by simpa using h) (by simpa using hall 0 n.succ_pos)
    · rw [if_neg h]
      rw [ih (f x)]
      constructor
      · intro hall k hk
        cases k with
        | zero => simpa using h
        | succ k =>
          have := hall k (Nat.lt_of_succ_lt_succ hk)
          simpa [Function.iterate_succ_apply] using this
      · intro hall k hk
        have := hall (k + 1) (Nat.succ_lt_succ hk)
        simpa [Function.iterate_succ_apply] using this

/-- C6: `iterate(f, x0, eps, N)` maintains a current value initialized to
`x0` (so the value before step `k` is `f^[k] x0`), computes `x_next = f(x)`
at each of up to `N` steps, and returns `x_next` — the newly computed value
`f^[k+1] x0`, not the previous `f^[k] x0` — exactly at the first step `k`
where `|x_next − x| < eps`; at all earlier steps the test failed and the
loop continued from `x_next`. -/
theorem iterate_ok_iff (f : ℚ → ℚ) (x0 eps y : ℚ) (N : Nat) :
    iterate f x0 eps N = .ok y ↔
      ∃ k, k < N ∧ (∀ j, j < k → ¬(|f^[j + 1] x0 - f^[j] x0| < eps)) ∧
        |f^[k + 1] x0 - f^[k] x0| < eps ∧ y = f^[k + 1] x0 :=
  iterLoop_ok_iff f eps N x0 y

theorem newtonLoop_valueError_iff (f df : ℚ → ℚ) (eps : ℚ) (v : Bool) :
    ∀ n x xs, newtonLoop f df eps v n x xs = .error .valueError ↔
      ∃ k, k < n ∧ df ((newtonStep f df)^[k] x) = 0 ∧
        ∀ j, j < k → df ((newtonStep f df)^[j] x) ≠ 0 ∧
          ¬(|(newtonStep f df)^[j + 1] x - (newtonStep f df)^[j] x| < eps) := by
  intro n
  induction n with
  | zero =>
    intro x xs
    simp [newtonLoop]
  | succ n ih =>
    intro x xs
    rw [newtonLoop]
    by_cases hd : df x = 0
    · rw [if_pos hd]
      constructor
      · intro _
        exact ⟨0, n.succ_pos, by simpa using hd, fun j hj => absurd hj (Nat.not_lt_zero j)⟩
      · intro _; rfl
    · rw [if_neg hd]
      by_cases hs : |newtonStep f df x - x| < eps
      · rw [if_pos hs]
        constructor
        · intro hc
          cases v <;> simp at hc
        · rintro ⟨k, hk, hdk, hall⟩
          cases k with
          | zero => exact absurd (by simpa using hdk) hd
          | succ k =>
            exact absurd (by simpa using hs) (by simpa using (hall 0 k.succ_pos).2)
      · rw [if_neg hs]
        rw [ih (newtonStep f df x) (xs ++ [newtonStep f df x])]
        constructor
        · rintro ⟨k, hk, hdk, hall⟩
          refine ⟨k + 1, Nat.succ_lt_succ hk, ?_, ?_⟩
          · simpa [Function.iterate_succ_apply] using hdk
          · intro j hj
            cases j with
            | zero => exact ⟨by simpa using hd, by simpa using hs⟩
            | succ j =>
              have := hall j (Nat.lt_of_succ_lt_succ hj)
              constructor
              · simpa [Function.iterate_succ_apply] using this.1
              · simpa [Function.iterate_succ_apply] using this.2
        · rintro ⟨k, hk, hdk, hall⟩
          cases k with
          | zero => exact absurd (by simpa using hdk) hd
          | succ k =>
            refine ⟨k, Nat.lt_of_succ_lt_succ hk, ?_, ?_⟩
            · simpa [Function.iterate_succ_apply] using hdk
            · intro j hj
              have := hall (j + 1) (Nat.succ_lt_succ hj)
              constructor
              · simpa [Function.iterate_succ_apply] using this.1
              · simpa [Function.iterate_succ_apply] using this.2

theorem newtonLoop_runtime_iff (f df : ℚ → ℚ) (eps : ℚ) (v : Bool) :
    ∀ n x xs, newtonLoop f df eps v n x xs = .error .runtimeError ↔
      ∀ k, k < n → df ((newtonStep f df)^[k] x) ≠ 0 ∧
        ¬(|(newtonStep f df)^[k + 1] x - (newtonStep f df)^[k] x| < eps) := by
  intro n
  induction n with
  | zero =>
    intro x xs
    simp [newtonLoop]
  | succ n ih =>
    intro x xs
    rw [newtonLoop]
    by_cases hd : df x = 0
    · rw [if_pos hd]
      constructor
      · intro hc; simp at hc
      · intro hall
        exact absurd (by simpa using hd) (by simpa using (hall 0 n.succ_pos).1)
    · rw [if_neg hd]
      by_cases hs : |newtonStep f df x - x| < eps
      · rw [if_pos hs]
        constructor
        · intro hc
          cases v <;> simp at hc
        · intro hall
          exact absurd (by simpa using hs) (by simpa using (hall 0 n.succ_pos).2)
      · rw [if_neg hs]
        rw [ih (newtonStep f df x) (xs ++ [newtonStep f df x])]
        constructor
        · intro hall k hk
          cases k with
          | zero => exact ⟨by simpa using hd, by simpa using hs⟩
          | succ k =>
            have := hall k (Nat.lt_of_succ_lt_succ hk)
            constructor
            · simpa [Function.iterate_succ_apply] using this.1
            · simpa [Function.iterate_succ_apply] using this.2
        · intro hall k hk
          have := hall (k + 1) (Nat.succ_lt_succ hk)
          constructor
          · simpa [Function.iterate_succ_apply] using this.1
          · simpa [Function.iterate_succ_apply] using this.2

/-- C3: `newton` raises the zero-derivative error (`ValueError`) exactly when
`df` evaluates to `0` at the current iterate at some step `k < N` — not only
the first — with the check made before the step (no condition on the stop
test at step `k` appears on the right-hand side: the derivative is checked
first, at every iteration), all earlier steps having a nonzero derivative and
a failed stopping test (otherwise the solve would already have returned).
The verbose flag `v` is arbitrary and the error constructor carries no trace,
so the partial iterate history is discarded and never returned. -/
theorem newton_valueError_iff (f df : ℚ → ℚ) (x0 eps : ℚ) (N : Nat) (v : Bool) :
    newton f df x0 eps N v = .error .valueError ↔
      ∃ k, k < N ∧ df ((newtonStep f df)^[k] x0) = 0 ∧
        ∀ j, j < k → df ((newtonStep f df)^[j] x0) ≠ 0 ∧
          ¬(|(newtonStep f df)^[j + 1] x0 - (newtonStep f df)^[j] x0| < eps) :=
  newtonLoop_valueError_iff f df eps v N x0 [x0]

theorem bisectLoop_runtime_iff (f : ℚ → ℚ) (eps : ℚ) (v : Bool) :
    ∀ n p cs, bisectLoop f eps v n p cs = .error .runtimeError ↔
      ∀ k, k < n →
        ¬ bstop f eps ((bisectStep f)^[k] p).1 ((bisectStep f)^[k] p).2 := by
  intro n
  induction n with
  | zero =>
    intro p cs
    simp [bisectLoop]
  | succ n ih =>
    intro p cs
    rw [bisectLoop]
    by_cases hs : bstop f eps p.1 p.2
    · rw [if_pos hs]
      constructor
      · intro hc
        cases v <;> simp at hc
      · intro hall
        exact absurd (by simpa using hs) (by simpa using hall 0 n.succ_pos)
    · rw [if_neg hs]
      rw [ih (bisectStep f p) (cs ++ [(p.1 + p.2) / 2])]
      constructor
      · intro hall k hk
        cases k with
        | zero => simpa using hs
        | succ k =>
          have := hall k (Nat.lt_of_succ_lt_succ hk)
          simpa [Function.iterate_succ_apply] using this
      · intro hall k hk
        have := hall (k + 1) (Nat.succ_lt_succ hk)
        simpa [Function.iterate_succ_apply] using this

/-- C7: each solver raises the convergence-exhausted error (`RuntimeError`)
exactly when `N` full iterations elapse without its stopping criterion being
met — for `bisect`, when the entry precondition passed (`f(a)·f(b) < 0`) and
none of the `N` successive brackets `(bisectStep f)^[k] (a, b)` satisfies the
stopping test; for `iterate`, when every step difference stays at least
`eps`; for `newton`, when every iterate has a nonzero derivative (so the
zero-derivative error never fires) and every step difference stays at least
`eps`.  The iff shape means the error is raised only after the full budget
of `N` steps is spent, never before. -/
theorem runtime_error_iff (f df g : ℚ → ℚ) (a b x0 y0 eps : ℚ) (N : Nat) (v : Bool) :
    (bisect f a b eps N v = .error .runtimeError ↔
      f a * f b < 0 ∧ ∀ k, k < N →
        ¬ bstop f eps ((bisectStep f)^[k] (a, b)).1 ((bisectStep f)^[k] (a, b)).2) ∧
    (iterate g y0 eps N = .error .runtimeError ↔
      ∀ k, k < N → ¬(|g^[k + 1] y0 - g^[k] y0| < eps)) ∧
    (newton f df x0 eps N v = .error .runtimeError ↔
      ∀ k, k < N → df ((newtonStep f df)^[k] x0) ≠ 0 ∧
        ¬(|(newtonStep f df)^[k + 1] x0 - (newtonStep f df)^[k] x0| < eps)) := by
  refine ⟨?_, iterLoop_runtime_iff g eps N y0, newtonLoop_runtime_iff f df eps v N x0 [x0]⟩
  rw [bisect]
  by_cases h : f a * f b ≥ 0
  · rw [if_pos h]
    constructor
    · intro hc; simp at hc
    · rintro ⟨hlt, _⟩
      exact absurd h (not_le.mpr hlt)
  · rw [if_neg h]
    rw [bisectLoop_runtime_iff f eps v N (a, b) []]
    constructor
    · intro hall
      exact ⟨not_le.mp h, hall⟩
    · rintro ⟨_, hall⟩
      exact hall

theorem getLast?_appendSingleton (l : List ℚ) (x : ℚ) : (l ++ [x]).getLast? = some x := by
  rw [List.getLast?_append_cons]
  rfl

theorem bisectLoop_ok_inl (f : ℚ → ℚ) (eps : ℚ) :
    ∀ n p cs c, bisectLoop f eps false n p cs = .ok (.inl c) →
      ∃ k, k < n ∧
        (∀ j, j < k → ¬ bstop f eps ((bisectStep f)^[j] p).1 ((bisectStep f)^[j] p).2) ∧
        c = (((bisectStep f)^[k] p).1 + ((bisectStep f)^[k] p).2) / 2 ∧
        bstop f eps ((bisectStep f)^[k] p).1 ((bisectStep f)^[k] p).2 := by
  intro n
  induction n with
  | zero => intro p cs c hc; simp [bisectLoop] at hc
  | succ n ih =>
    intro p cs c hc
    rw [bisectLoop] at hc
    by_cases hs : bstop f eps p.1 p.2
    · rw [if_pos hs] at hc
      simp only [Bool.false_eq_true, if_false] at hc
      have hmid : (p.1 + p.2) / 2 = c := by simpa using hc
      exact ⟨0, n.succ_pos, fun j hj => absurd hj (Nat.not_lt_zero j),
        by simpa using hmid.symm, by simpa using hs⟩
    · rw [if_neg hs] at hc
      obtain ⟨k, hk, hmin, hc', hstop⟩ := ih (bisectStep f p) (cs ++ [(p.1 + p.2) / 2]) c hc
      refine ⟨k + 1, Nat.succ_lt_succ hk, ?_, ?_, ?_⟩
      · intro j hj
        cases j with
        | zero => simpa using hs
        | succ j =>
          have := hmin j (Nat.lt_of_succ_lt_succ hj)
          simpa [Function.iterate_succ_apply] using this
      · simpa [Function.iterate_succ_apply] using hc'
      · simpa [Function.iterate_succ_apply] using hstop

/-- C1: for every `f`, bounds `a`, `b` with `f(a)·f(b) < 0` (`a < b` not
required), every tolerance `eps` and cap `N`: if the non-verbose call returns
a scalar `c`, then there is a step `k < N` — the moment of return: the
stopping test failed at every earlier step, so `(bisectStep f)^[k] (a, b)` is
the bracket the loop actually holds at step `k` — such that `c` is the
midpoint of that bracket and either `|f(c)| < eps` or that bracket's
half-width is below `eps`. -/
theorem bisect_scalar_return (f : ℚ → ℚ) (a b eps : ℚ) (N : Nat) (c : ℚ)
    (hsign : f a * f b < 0) (hret : bisect f a b eps N false = .ok (.inl c)) :
    ∃ k, k < N ∧
      (∀ j, j < k →
        ¬ bstop f eps ((bisectStep f)^[j] (a, b)).1 ((bisectStep f)^[j] (a, b)).2) ∧
      c = (((bisectStep f)^[k] (a, b)).1 + ((bisectStep f)^[k] (a, b)).2) / 2 ∧
      (|f c| < eps ∨
        (((bisectStep f)^[k] (a, b)).2 - ((bisectStep f)^[k] (a, b)).1) / 2 < eps) := by
  rw [bisect, if_neg (not_le.mpr hsign)] at hret
  obtain ⟨k, hk, hmin, hc, hstop⟩ := bisectLoop_ok_inl f eps N (a, b) [] c hret
  refine ⟨k, hk, hmin, hc, ?_⟩
  rw [bstop] at hstop
  rcases hstop with hstop | hstop
  · left; rw [hc]; exact hstop
  · right; exact hstop

theorem bisect_id_eval :
    bisect (fun x : ℚ => x) (-1) 1 (1 / 2) 100 false = .ok (.inl 0) := by
  rw [bisect, if_neg (by norm_num)]
  rw [show (100 : Nat) = 99 + 1 from rfl, bisectLoop, if_pos (by norm_num [bstop])]
  norm_num

theorem newton_id_eval :
    newton (fun x : ℚ => x) (fun _ : ℚ => 1) 7 (1 / 2) 100 false = .ok (.inl 0) := by
  rw [newton, show (100 : Nat) = 99 + 1 from rfl, newtonLoop,
    if_neg (by norm_num), if_neg (by norm_num [newtonStep])]
  rw [show (99 : Nat) = 98 + 1 from rfl, newtonLoop,
    if_neg (by norm_num), if_pos (by norm_num [newtonStep])]
  norm_num [newtonStep]

/-- Witness for C1 at `f = id`, `a = -1`, `b = 1`, `eps = 1/2`, `N = 100`,
where the call returns the scalar `0`: there is a return step `k` whose
bracket has `0` as midpoint and satisfies the stopping disjunction. -/
theorem bisect_scalar_return_witness :
    (fun x : ℚ => x) (-1) * (fun x : ℚ => x) 1 < 0 ∧
    ∃ k, k < 100 ∧
      (∀ j, j < k →
        ¬ bstop (fun x : ℚ => x) (1 / 2)
          ((bisectStep (fun x : ℚ => x))^[j] ((-1 : ℚ), (1 : ℚ))).1
          ((bisectStep (fun x : ℚ => x))^[j] ((-1 : ℚ), (1 : ℚ))).2) ∧
      (0 : ℚ) = (((bisectStep (fun x : ℚ => x))^[k] ((-1 : ℚ), (1 : ℚ))).1 +
        ((bisectStep (fun x : ℚ => x))^[k] ((-1 : ℚ), (1 : ℚ))).2) / 2 ∧
      (|(fun x : ℚ => x) 0| < 1 / 2 ∨
        (((bisectStep (fun x : ℚ => x))^[k] ((-1 : ℚ), (1 : ℚ))).2 -
          ((bisectStep (fun x : ℚ => x))^[k] ((-1 : ℚ), (1 : ℚ))).1) / 2 < 1 / 2) :=
  ⟨by norm_num,
   bisect_scalar_return (fun x : ℚ => x) (-1) 1 (1 / 2) 100 0 (by norm_num) bisect_id_eval⟩

theorem bisectLoop_range (f : ℚ → ℚ) (eps : ℚ) (v : Bool) (lo hi : ℚ) :
    ∀ n p cs, lo ≤ p.1 → p.1 < p.2 → p.2 ≤ hi →
      (∀ x ∈ cs, lo < x ∧ x < hi) →
      (∀ c, bisectLoop f eps v n p cs = .ok (.inl c) → lo < c ∧ c < hi) ∧
      (∀ cs', bisectLoop f eps v n p cs = .ok (.inr cs') → ∀ x ∈ cs', lo < x ∧ x < hi) := by
  intro n
  induction n with
  | zero =>
    intro p cs _ _ _ _
    constructor
    · intro c hc; simp [bisectLoop] at hc
    · intro cs' hc; simp [bisectLoop] at hc
  | succ n ih =>
    intro p cs h1 h2 h3 hcs
    have hmid1 : p.1 < (p.1 + p.2) / 2 := by linarith
    have hmid2 : (p.1 + p.2) / 2 < p.2 := by linarith
    have hmlo : lo < (p.1 + p.2) / 2 := lt_of_le_of_lt h1 hmid1
    have hmhi : (p.1 + p.2) / 2 < hi := lt_of_lt_of_le hmid2 h3
    have hcs' : ∀ x ∈ cs ++ [(p.1 + p.2) / 2], lo < x ∧ x < hi := by
      intro x hx
      rcases List.mem_append.mp hx with hx | hx
      · exact hcs x hx
      · have hxm : x = (p.1 + p.2) / 2 := by simpa using hx
        rw [hxm]; exact ⟨hmlo, hmhi⟩
    rw [bisectLoop]
    by_cases hs : bstop f eps p.1 p.2
    · rw [if_pos hs]
      cases v
      · constructor
        · intro c hc
          have hmid : (p.1 + p.2) / 2 = c := by simpa using hc
          rw [← hmid]; exact ⟨hmlo, hmhi⟩
        · intro cs' hc; simp at hc
      · constructor
        · intro c hc; simp at hc
        · intro cs' hc
          have hcs'' : cs ++ [(p.1 + p.2) / 2] = cs' := by simpa using hc
          rw [← hcs'']
          exact hcs'
    · rw [if_neg hs]
      rw [bisectStep]
      by_cases hlt : f ((p.1 + p.2) / 2) * f p.1 < 0
      · rw [if_pos hlt]
        exact ih (p.1, (p.1 + p.2) / 2) (cs ++ [(p.1 + p.2) / 2]) h1 hmid1 hmhi.le hcs'
      · rw [if_neg hlt]
        exact ih ((p.1 + p.2) / 2, p.2) (cs ++ [(p.1 + p.2) / 2]) hmlo.le hmid2 h3 hcs'

/-- C9: for every call with `a < b` and `f(a)·f(b) < 0`, a returned scalar
result lies strictly inside the open interval `(a, b)`, and every element of
a returned verbose trace — the appended midpoints — lies strictly inside
`(a, b)` as well. -/
theorem bisect_open_interval (f : ℚ → ℚ) (a b eps : ℚ) (N : Nat)
    (hab : a < b) (hsign : f a * f b < 0) :
    (∀ c, bisect f a b eps N false = .ok (.inl c) → a < c ∧ c < b) ∧
    (∀ cs, bisect f a b eps N true = .ok (.inr cs) → ∀ x ∈ cs, a < x ∧ x < b) := by
  have hpre : ¬ f a * f b ≥ 0 := not_le.mpr hsign
  constructor
  · intro c hc
    rw [bisect, if_neg hpre] at hc
    exact (bisectLoop_range f eps false a b N (a, b) [] le_rfl hab le_rfl (by simp)).1 c hc
  · intro cs hc
    rw [bisect, if_neg hpre] at hc
    exact (bisectLoop_range f eps true a b N (a, b) [] le_rfl hab le_rfl (by simp)).2 cs hc

/-- Witness for C9 at `f = id`, `a = -1`, `b = 1`, `eps = 1/2`, `N = 100`:
the returned scalar `0` lies strictly inside `(-1, 1)`. -/
theorem bisect_open_interval_witness :
    ((-1 : ℚ) < 1 ∧ (fun x : ℚ => x) (-1) * (fun x : ℚ => x) 1 < 0) ∧
    ((-1 : ℚ) < 0 ∧ (0 : ℚ) < 1) :=
  ⟨⟨by norm_num, by norm_num⟩,
   (bisect_open_interval (fun x : ℚ => x) (-1) 1 (1 / 2) 100 (by norm_num) (by norm_num)).1
     0 bisect_id_eval⟩

theorem bisectLoop_verbose_of_scalar (f : ℚ → ℚ) (eps : ℚ) :
    ∀ n p cs c, bisectLoop f eps false n p cs = .ok (.inl c) →
      ∃ cs', bisectLoop f eps true n p cs = .ok (.inr cs') ∧ cs'.getLast? = some c := by
  intro n
  induction n with
  | zero => intro p cs c hc; simp [bisectLoop] at hc
  | succ n ih =>
    intro p cs c hc
    rw [bisectLoop] at hc ⊢
    by_cases hs : bstop f eps p.1 p.2
    · rw [if_pos hs] at hc ⊢
      simp only [Bool.false_eq_true, if_false] at hc
      have hmid : (p.1 + p.2) / 2 = c := by simpa using hc
      refine ⟨cs ++ [(p.1 + p.2) / 2], by simp, ?_⟩
      rw [hmid, getLast?_appendSingleton]
    · rw [if_neg hs] at hc ⊢
      exact ih _ _ _ hc

theorem newtonLoop_verbose_of_scalar (f df : ℚ → ℚ) (eps : ℚ) :
    ∀ n x xs y, newtonLoop f df eps false n x xs = .ok (.inl y) →
      ∃ xs', newtonLoop f df eps true n x xs = .ok (.inr xs') ∧ xs'.getLast? = some y := by
  intro n
  induction n with
  | zero => intro x xs y hy; simp [newtonLoop] at hy
  | succ n ih =>
    intro x xs y hy
    rw [newtonLoop] at hy ⊢
    by_cases hd : df x = 0
    · rw [if_pos hd] at hy
      simp at hy
    · rw [if_neg hd] at hy ⊢
      by_cases hs : |newtonStep f df x - x| < eps
      · rw [if_pos hs] at hy ⊢
        simp only [Bool.false_eq_true, if_false] at hy
        have hnext : newtonStep f df x = y := by simpa using hy
        refine ⟨xs ++ [newtonStep f df x], by simp, ?_⟩
        rw [hnext, getLast?_appendSingleton]
      · rw [if_neg hs] at hy ⊢
        exact ih _ _ _ hy

/-- C5: for `bisect` and `newton`, on identical inputs for which the
non-verbose call returns a scalar, the verbose call returns a trace whose
last element equals that scalar. -/
theorem verbose_trace_last (f df : ℚ → ℚ) (a b x0 eps : ℚ) (N : Nat) :
    (∀ c, bisect f a b eps N false = .ok (.inl c) →
      ∃ cs, bisect f a b eps N true = .ok (.inr cs) ∧ cs.getLast? = some c) ∧
    (∀ y, newton f df x0 eps N false = .ok (.inl y) →
      ∃ xs, newton f df x0 eps N true = .ok (.inr xs) ∧ xs.getLast? = some y) := by
  constructor
  · intro c hc
    rw [bisect] at hc ⊢
    by_cases h : f a * f b ≥ 0
    · rw [if_pos h] at hc; simp at hc
    · rw [if_neg h] at hc ⊢
      exact bisectLoop_verbose_of_scalar f eps N (a, b) [] c hc
  · intro y hy
    exact newtonLoop_verbose_of_scalar f df eps N x0 [x0] y hy

/-- Witness for C5: `bisect id (-1) 1 (1/2) 100` returns the scalar `0`, and
`newton id (fun _ => 1) 7 (1/2) 100` returns the scalar `0`; the verbose
traces end in `0` in both cases. -/
theorem verbose_trace_last_witness :
    (∃ cs, bisect (fun x : ℚ => x) (-1) 1 (1 / 2) 100 true = .ok (.inr cs) ∧
      cs.getLast? = some 0) ∧
    (∃ xs, newton (fun x : ℚ => x) (fun _ : ℚ => 1) 7 (1 / 2) 100 true = .ok (.inr xs) ∧
      xs.getLast? = some 0) :=
  ⟨(verbose_trace_last (fun x : ℚ => x) (fun _ : ℚ => 1) (-1) 1 7 (1 / 2) 100).1
      0 bisect_id_eval,
   (verbose_trace_last (fun x : ℚ => x) (fun _ : ℚ => 1) (-1) 1 7 (1 / 2) 100).2
      0 newton_id_eval⟩

/-- C2 (amended: requires `0 < eps`): whenever the stopping test fails at
midpoint `c = (a+b)/2` on a bracket with `f(a)·f(b) < 0`, the solver replaces
exactly one bound — `b = c` when `f(c)` and `f(a)` have opposite signs
(`f(c)·f(a) < 0`), `a = c` otherwise — and, provided `eps` is positive (so
the failed test `|f(c)| < eps` forces `f(c) ≠ 0`), the function values at the
two bounds after the replacement still have opposite signs.  Without
`0 < eps` the preservation fails: see the counterexample. -/
theorem bisectStep_preserves_bracket (f : ℚ → ℚ) (a b eps : ℚ)
    (hsign : f a * f b < 0) (heps : 0 < eps) (hstop : ¬ bstop f eps a b) :
    (f ((a + b) / 2) * f a < 0 → bisectStep f (a, b) = (a, (a + b) / 2)) ∧
    (¬ f ((a + b) / 2) * f a < 0 → bisectStep f (a, b) = ((a + b) / 2, b)) ∧
    f (bisectStep f (a, b)).1 * f (bisectStep f (a, b)).2 < 0 := by
  have hfc : f ((a + b) / 2) ≠ 0 := by
    intro h0
    apply hstop
    left
    rw [h0]
    simpa using heps
  have hfa : f a ≠ 0 := by
    intro h0
    rw [h0, zero_mul] at hsign
    exact absurd hsign (lt_irrefl 0)
  refine ⟨?_, ?_, ?_⟩
  · intro h
    unfold bisectStep
    rw [if_pos (by simpa using h)]
  · intro h
    unfold bisectStep
    rw [if_neg (by simpa using h)]
  · unfold bisectStep
    by_cases hca : f ((a + b) / 2) * f a < 0
    · rw [if_pos (by simpa using hca)]
      simp only []
      have hcomm : f a * f ((a + b) / 2) = f ((a + b) / 2) * f a := mul_comm _ _
      simpa [hcomm] using hca
    · rw [if_neg (by simpa using hca)]
      simp only []
      have hpos : 0 < f ((a + b) / 2) * f a :=
        lt_of_le_of_ne (not_lt.mp hca) (Ne.symm (mul_ne_zero hfc hfa))
      have key : f ((a + b) / 2) * f a * (f a * f b) < 0 :=
        mul_neg_of_pos_of_neg hpos hsign
      by_contra hge
      push_neg at hge
      have h2 : 0 ≤ f ((a + b) / 2) * f b * (f a * f a) :=
        mul_nonneg hge (mul_self_nonneg _)
      have h3 : f ((a + b) / 2) * f b * (f a * f a) =
          f ((a + b) / 2) * f a * (f a * f b) := by ring
      rw [h3] at h2
      exact absurd key (not_lt.mpr h2)

/-- Witness for the amended C2 at `f = (· - 1/2)`, `a = -1`, `b = 1`,
`eps = 1/4`: the stopping test fails at the midpoint `0`, and replacing the
low bound yields the bracket `(0, 1)`, which still has opposite signs. -/
theorem bisectStep_preserves_bracket_witness :
    (fun x : ℚ => x - 1 / 2) (-1) * (fun x : ℚ => x - 1 / 2) 1 < 0 ∧
    (fun x : ℚ => x - 1 / 2)
        (bisectStep (fun x : ℚ => x - 1 / 2) ((-1 : ℚ), (1 : ℚ))).1 *
      (fun x : ℚ => x - 1 / 2)
        (bisectStep (fun x : ℚ => x - 1 / 2) ((-1 : ℚ), (1 : ℚ))).2 < 0 :=
  ⟨by norm_num,
   (bisectStep_preserves_bracket (fun x : ℚ => x - 1 / 2) (-1) 1 (1 / 4)
      (by norm_num) (by norm_num) (by norm_num [bstop, abs_lt])).2.2⟩

/-- Counterexample for C2 as stated (no positivity assumption on `eps`): at
`f = id`, `a = -1`, `b = 1`, `eps = 0` the entry bracket has opposite signs
and the stopping test fails at the midpoint `0`, yet after the replacement
(`a = 0`, since `f(0)·f(-1) = 0` is not negative) the function values at the
bounds are `0` and `1`, whose product is not negative: the sign-opposition
invariant is not preserved. -/
theorem bisectStep_sign_cex :
    (fun x : ℚ => x) (-1) * (fun x : ℚ => x) 1 < 0 ∧
    ¬ bstop (fun x : ℚ => x) 0 (-1) 1 ∧
    ¬ ((fun x : ℚ => x) (bisectStep (fun x : ℚ => x) ((-1 : ℚ), (1 : ℚ))).1 *
        (fun x : ℚ => x) (bisectStep (fun x : ℚ => x) ((-1 : ℚ), (1 : ℚ))).2 < 0) := by
  have hstep : bisectStep (fun x : ℚ => x) ((-1 : ℚ), (1 : ℚ)) = (0, 1) := by
    unfold bisectStep
    rw [if_neg (by norm_num)]
    norm_num
  refine ⟨by norm_num, by norm_num [bstop], ?_⟩
  rw [hstep]
  norm_num

/-- C8 (amended: requires `0 < eps`): if the midpoint `c` of some iteration
satisfies `f(c) = 0` exactly, then — provided `eps` is positive — the
`|f(c)| < eps` stopping branch fires at that iteration before the
bound-replacement logic runs, so the loop returns `c` (the trace ending at
`c` in verbose mode) from that iteration with the bracket not narrowed
further.  Without `0 < eps` the branch cannot fire: see the counterexample. -/
theorem bisectLoop_exact_zero (f : ℚ → ℚ) (eps : ℚ) (v : Bool) (n : Nat)
    (p : ℚ × ℚ) (cs : List ℚ) (heps : 0 < eps) (hf : f ((p.1 + p.2) / 2) = 0)
    (hn : 0 < n) :
    bisectLoop f eps v n p cs =
      if v then .ok (.inr (cs ++ [(p.1 + p.2) / 2]))
      else .ok (.inl ((p.1 + p.2) / 2)) := by
  cases n with
  | zero => exact absurd hn (lt_irrefl 0)
  | succ m =>
    rw [bisectLoop, if_pos]
    left
    rw [hf]
    simpa using heps

/-- Witness for the amended C8 at `f = id`, bracket `(-1, 1)`, `eps = 1/2`:
the midpoint `0` has `f(0) = 0`, so the loop returns it immediately. -/
theorem bisectLoop_exact_zero_witness :
    bisectLoop (fun x : ℚ => x) (1 / 2) false 5 ((-1 : ℚ), (1 : ℚ)) [] =
      .ok (.inl ((((-1 : ℚ)) + 1) / 2)) := by
  have h := bisectLoop_exact_zero (fun x : ℚ => x) (1 / 2) false 5
    ((-1 : ℚ), (1 : ℚ)) [] (by norm_num) (by norm_num) (by norm_num)
  simpa using h

/-- Counterexample for C8 as stated (no positivity assumption on `eps`): at
`f = id`, `a = -1`, `b = 1`, `eps = 0`, `N = 2` the first midpoint is `0`
with `f(0) = 0` exactly, yet `bisect` does not return it — the strict test
`|f(0)| < 0` fails, the bracket is narrowed twice more and the call ends in
the convergence-exhausted error. -/
theorem bisect_exact_zero_cex :
    (fun x : ℚ => x) (((-1 : ℚ) + 1) / 2) = 0 ∧
    bisect (fun x : ℚ => x) (-1) 1 0 2 false = .error .runtimeError := by
  refine ⟨by norm_num, ?_⟩
  have hstep : bisectStep (fun x : ℚ => x) ((-1 : ℚ), (1 : ℚ)) = (0, 1) := by
    unfold bisectStep
    rw [if_neg (by norm_num)]
    norm_num
  rw [bisect, if_neg (by norm_num)]
  rw [show (2 : Nat) = 1 + 1 from rfl, bisectLoop, if_neg (by norm_num [bstop])]
  rw [hstep]
  rw [show (1 : Nat) = 0 + 1 from rfl, bisectLoop, if_neg (by norm_num [bstop])]
  rw [bisectLoop]

end Numanpy
